import Mathlib

/-!
Verification of the pixel-kernel library `image_filters.pyx`
(`gaussian_blur`, `sharpen_filter`, `edge_detection`, `adjust_brightness`).

The source operates on dense `uint8` arrays of shape (height, width,
channels) and accumulates in C `double`s.  In the three convolution
filters every `double` value the source computes is an exact dyadic
rational of tiny magnitude (pixel values are at most 255, kernel weights
are 0, ±1, ±2, 4, 5 or k/16), so IEEE-754 arithmetic is exact on them
and the code's arithmetic coincides with exact rational arithmetic; we
therefore embed the `double` accumulator as `ℚ`.  The one operation
where rounding matters is the product `image[y,x,c] * factor` of
`adjust_brightness`, whose `factor` is an arbitrary caller-supplied
double: there the embedding applies `roundDouble`, IEEE-754 binary64
round-to-nearest (ties to even), to the exact product.  The C cast
`<uint8_t>v` truncates toward zero; it is embedded as `truncQ`.  An
image is embedded as its shape together with a total pixel function;
indices outside the shape are irrelevant (the source never reads them)
and all theorems quantify only over in-range indices.
-/

/-- An RGB image: shape (height, width, channels) and the pixel value at
each (row, column, channel) index.  Mirrors the `uint8` ndarray of the
source; values of a well-formed image lie in [0, 255] (`Image.Valid`). -/
structure Image where
  height : Nat
  width : Nat
  channels : Nat
  pix : Nat → Nat → Nat → Nat

/-- All in-range elements fit in an unsigned byte, as the `uint8` element
type of the source arrays guarantees. -/
def Image.Valid (img : Image) : Prop :=
  ∀ y < img.height, ∀ x < img.width, ∀ c < img.channels, img.pix y x c ≤ 255

instance (img : Image) : Decidable img.Valid := by
  unfold Image.Valid; infer_instance

/-- Truncation of a rational toward zero, the semantics of the C cast
`<uint8_t>sum_val` on a double whose value is in [0, 256). -/
def truncQ (q : ℚ) : ℤ :=
  q.num.tdiv (q.den : ℤ)

/-- The truncating C cast to the unsigned 8-bit element type, for the
in-range values the source feeds it. -/
def toU8 (q : ℚ) : Nat :=
  (truncQ q).toNat

/-- The 3x3 Gaussian kernel of `gaussian_blur` (lines 36-39 of the
source): 1/16 2/16 1/16 / 2/16 4/16 2/16 / 1/16 2/16 1/16. -/
def gaussianKernel (ky kx : Nat) : ℚ :=
  match ky, kx with
  | 0, 0 => 1/16 | 0, 1 => 2/16 | 0, 2 => 1/16
  | 1, 0 => 2/16 | 1, 1 => 4/16 | 1, 2 => 2/16
  | 2, 0 => 1/16 | 2, 1 => 2/16 | 2, 2 => 1/16
  | _, _ => 0

/-- The 3x3 sharpening kernel of `sharpen_filter` (lines 85-88):
0 -1 0 / -1 5 -1 / 0 -1 0. -/
def sharpenKernel (ky kx : Nat) : ℚ :=
  match ky, kx with
  | 0, 0 => 0 | 0, 1 => -1 | 0, 2 => 0
  | 1, 0 => -1 | 1, 1 => 5 | 1, 2 => -1
  | 2, 0 => 0 | 2, 1 => -1 | 2, 2 => 0
  | _, _ => 0

/-- The Sobel X kernel of `edge_detection` (lines 140-143). -/
def sobelX (ky kx : Nat) : ℚ :=
  match ky, kx with
  | 0, 0 => -1 | 0, 1 => 0 | 0, 2 => 1
  | 1, 0 => -2 | 1, 1 => 0 | 1, 2 => 2
  | 2, 0 => -1 | 2, 1 => 0 | 2, 2 => 1
  | _, _ => 0

/-- The Sobel Y kernel of `edge_detection` (lines 146-149). -/
def sobelY (ky kx : Nat) : ℚ :=
  match ky, kx with
  | 0, 0 => -1 | 0, 1 => -2 | 0, 2 => -1
  | 1, 0 => 0 | 1, 1 => 0 | 1, 2 => 0
  | 2, 0 => 1 | 2, 1 => 2 | 2, 2 => 1
  | _, _ => 0

/-- The inner accumulation loop shared by the three convolution filters:
`for ky in range(3): for kx in range(3): sum_val += image[y+ky-1, x+kx-1, c] * kernel[ky][kx]`.
(The index arithmetic `y + ky - 1` never goes below zero in the source
because the interior loops start at `y = 1`, `x = 1`; natural subtraction
agrees with the source there.) -/
def convSum (img : Image) (K : Nat → Nat → ℚ) (y x c : Nat) : ℚ :=
  Finset.sum (Finset.range 3) fun ky =>
    Finset.sum (Finset.range 3) fun kx =>
      (img.pix (y + ky - 1) (x + kx - 1) c : ℚ) * K ky kx

/-- In-range test for an index triple against an image's shape; the
output array of each transform has exactly the input's shape
(`np.zeros_like(image)`), and an index is a cell of it iff this holds. -/
def Image.inBounds (img : Image) (y x c : Nat) : Prop :=
  y < img.height ∧ x < img.width ∧ c < img.channels

instance (img : Image) (y x c : Nat) : Decidable (img.inBounds y x c) := by
  unfold Image.inBounds; infer_instance

/-- On the single-pixel border frame: the writes
`output[0,:,:] = image[0,:,:]` etc. of blur and sharpen target exactly
these indices, and the interior loops `range(1, height-1)` x
`range(1, width-1)` target exactly the in-range indices not satisfying
this. -/
def Image.onBorder (img : Image) (y x : Nat) : Prop :=
  y = 0 ∨ y = img.height - 1 ∨ x = 0 ∨ x = img.width - 1

instance (img : Image) (y x : Nat) : Decidable (img.onBorder y x) := by
  unfold Image.onBorder; infer_instance

/-- `gaussian_blur` (source lines 18-63): output allocated as
`np.zeros_like(image)`; each interior cell receives the truncated
Gaussian convolution sum (no clamp in the source); afterwards the four
border rows/columns are overwritten with verbatim copies of the input
border.  The final value of each cell of the returned array is recorded
here (border copy and interior loop touch disjoint cells). -/
def gaussian_blur (img : Image) : Image where
  height := img.height
  width := img.width
  channels := img.channels
  pix := fun y x c =>
    if img.inBounds y x c then
      if img.onBorder y x then img.pix y x c
      else toU8 (convSum img gaussianKernel y x c)
    else 0

/-- The clamp of `sharpen_filter` (lines 105-108), in source order:
`if sum_val < 0: sum_val = 0 elif sum_val > 255: sum_val = 255`. -/
def sharpenClamp (v : ℚ) : ℚ :=
  if v < 0 then 0 else if v > 255 then 255 else v

/-- `sharpen_filter` (source lines 68-118): like `gaussian_blur` but
with the sharpening kernel and with the sum clamped to [0, 255] before
the truncating cast; borders copied verbatim from the input. -/
def sharpen_filter (img : Image) : Image where
  height := img.height
  width := img.width
  channels := img.channels
  pix := fun y x c =>
    if img.inBounds y x c then
      if img.onBorder y x then img.pix y x c
      else toU8 (sharpenClamp (convSum img sharpenKernel y x c))
    else 0

/-- The interior value of `edge_detection` (lines 158-172): `gx`, `gy`
are exact integers in the source's doubles; `gx*gx + gy*gy` is an exact
integer at most 2*1020^2 < 2^53, and the truncating cast of the
correctly rounded `sqrt` of such an integer, clamped above at 255,
equals `Nat.sqrt` of it clamped at 255 (rounding cannot carry the value
across an integer at these magnitudes). -/
def edgeMagnitude (img : Image) (y x c : Nat) : Nat :=
  let gx := convSum img sobelX y x c
  let gy := convSum img sobelY y x c
  let magnitude := Nat.sqrt (truncQ (gx * gx + gy * gy)).toNat
  if magnitude > 255 then 255 else magnitude

/-- `edge_detection` (source lines 123-174): output allocated as
`np.zeros_like(image)`; interior cells receive the clamped, truncated
Sobel gradient magnitude; no border copy is performed, so border cells
keep their initial zero. -/
def edge_detection (img : Image) : Image where
  height := img.height
  width := img.width
  channels := img.channels
  pix := fun y x c =>
    if img.inBounds y x c ∧ ¬ img.onBorder y x then
      edgeMagnitude img y x c
    else 0

/-- The clamp of `adjust_brightness` (lines 205-208), in source order:
`if new_val > 255: new_val = 255 elif new_val < 0: new_val = 0`. -/
def brightClamp (v : ℚ) : ℚ :=
  if v > 255 then 255 else if v < 0 then 0 else v

/-- Round a scaled significand to an integer, half to even: the tie-
breaking rule of IEEE-754 round-to-nearest applied once the value has
been scaled into the significand range. -/
def roundSig (f : ℚ) : ℤ :=
  if f - ⌊f⌋ < 1/2 then ⌊f⌋
  else if 1/2 < f - ⌊f⌋ then ⌊f⌋ + 1
  else if 2 ∣ ⌊f⌋ then ⌊f⌋ else ⌊f⌋ + 1

/-- The IEEE-754 binary64 rounding (round to nearest, ties to even) of
an exact rational: scale `|q|` by the power of two that puts it in the
53-bit significand range `[2^52, 2^53)`, round half to even, and scale
back.  This is the value the C expression `image[y, x, c] * factor`
takes in the source, where the exact product of the two operand doubles
is rounded once.  Subnormal underflow and overflow to infinity are not
distinguished (the model keeps a rounded normal-grid value there); both
regimes are collapsed to the same 8-bit output by the clamp that
follows every use, so no reachable output differs. -/
def roundDouble (q : ℚ) : ℚ :=
  if q = 0 then 0
  else
    (if q < 0 then -1 else 1)
      * (roundSig (|q| / 2 ^ (Int.log 2 |q| - 52)) : ℚ)
      * 2 ^ (Int.log 2 |q| - 52)

/-- `adjust_brightness` (source lines 179-212): every cell, borders
included, receives `<uint8_t>(clamp(image[y,x,c] * factor))`, the
multiplication being a correctly rounded IEEE-754 double product
(`roundDouble` of the exact product); the `double factor` argument is
embedded as an arbitrary rational. -/
def adjust_brightness (img : Image) (factor : ℚ) : Image where
  height := img.height
  width := img.width
  channels := img.channels
  pix := fun y x c =>
    if img.inBounds y x c then
      toU8 (brightClamp (roundDouble ((img.pix y x c : ℚ) * factor)))
    else 0

/-! ### Generic facts about the truncating cast -/

theorem truncQ_intCast (n : ℤ) : truncQ ((n : ℤ) : ℚ) = n := by
  simp [truncQ]

theorem toU8_intCast (n : ℤ) : toU8 ((n : ℤ) : ℚ) = n.toNat := by
  simp [toU8, truncQ]

theorem toU8_natCast (n : ℕ) : toU8 ((n : ℕ) : ℚ) = n := by
  simp [toU8, truncQ]

theorem truncQ_eq_floor (q : ℚ) (h : 0 ≤ q) : truncQ q = ⌊q⌋ := by
  unfold truncQ
  rw [Rat.floor_def, Int.tdiv_eq_ediv]
  · exact Rat.num_nonneg.mpr h
  · positivity

theorem truncQ_toNat_le (q : ℚ) (h0 : 0 ≤ q) (h1 : q ≤ 255) :
    (truncQ q).toNat ≤ 255 := by
  rw [truncQ_eq_floor q h0]
  have : ⌊q⌋ ≤ (255 : ℤ) := by
    have := Int.floor_le_floor h1
    simpa using this
  omega

/-! ### Facts about the binary64 rounding -/

theorem roundSig_intCast (n : ℤ) : roundSig ((n : ℤ) : ℚ) = n := by
  unfold roundSig
  rw [Int.floor_intCast, sub_self, if_pos (by norm_num)]

theorem roundSig_nonneg (f : ℚ) (h : 0 ≤ f) : 0 ≤ roundSig f := by
  have hfl : 0 ≤ ⌊f⌋ := Int.floor_nonneg.mpr h
  unfold roundSig
  split_ifs <;> omega

theorem roundSig_half_odd (n : ℤ) (hodd : ¬ 2 ∣ n) :
    roundSig ((n : ℚ) + 1/2) = n + 1 := by
  have hfl : ⌊(n : ℚ) + 1/2⌋ = n := by
    rw [add_comm, Int.floor_add_int]
    norm_num
  unfold roundSig
  rw [hfl]
  have hr : (n : ℚ) + 1/2 - n = 1/2 := by ring
  rw [hr, if_neg (by norm_num), if_neg (by norm_num), if_neg hodd]

theorem roundDouble_nonpos (q : ℚ) (h : q ≤ 0) : roundDouble q ≤ 0 := by
  unfold roundDouble
  split_ifs with h0 hneg
  · exact le_refl 0
  · have hs : (0 : ℤ) ≤ roundSig (|q| / 2 ^ (Int.log 2 |q| - 52)) :=
      roundSig_nonneg _ (by positivity)
    have hsq : (0 : ℚ) ≤ (roundSig (|q| / 2 ^ (Int.log 2 |q| - 52)) : ℚ) := by
      exact_mod_cast hs
    have hp : (0 : ℚ) < 2 ^ (Int.log 2 |q| - 52) := by positivity
    nlinarith
  · exact absurd (lt_of_le_of_ne h h0) hneg

theorem roundDouble_natCast (n : ℕ) (hn : n ≤ 255) :
    roundDouble (n : ℚ) = n := by
  rcases Nat.eq_zero_or_pos n with h0 | hpos
  · subst h0
    norm_num [roundDouble]
  · have hpos' : (0 : ℚ) < n := by exact_mod_cast hpos
    have hne : ((n : ℚ)) ≠ 0 := ne_of_gt hpos'
    have habs : |(n : ℚ)| = (n : ℚ) := abs_of_pos hpos'
    have hL0 : 0 ≤ Int.log 2 (n : ℚ) := by
      rw [← Int.zpow_le_iff_le_log (by norm_num) hpos']
      simpa using (by exact_mod_cast hpos : (1 : ℚ) ≤ n)
    have hL8 : Int.log 2 (n : ℚ) < 8 := by
      rw [← Int.lt_zpow_iff_log_lt (by norm_num) hpos']
      calc (n : ℚ) ≤ 255 := by exact_mod_cast hn
        _ < 2 ^ (8 : ℤ) := by norm_num
    have hk : (((52 - Int.log 2 (n : ℚ)).toNat : ℤ)) = 52 - Int.log 2 (n : ℚ) :=
      Int.toNat_of_nonneg (by omega)
    have hzpow : (2 : ℚ) ^ (Int.log 2 (n : ℚ) - 52)
        = ((2 ^ (52 - Int.log 2 (n : ℚ)).toNat : ℕ) : ℚ)⁻¹ := by
      have h1 : Int.log 2 (n : ℚ) - 52 = -(((52 - Int.log 2 (n : ℚ)).toNat : ℤ)) := by
        omega
      rw [h1, zpow_neg, zpow_natCast]
      push_cast
      ring_nf
    have h2pow : ((2 ^ (52 - Int.log 2 (n : ℚ)).toNat : ℕ) : ℚ) ≠ 0 := by
      positivity
    have hf : |(n : ℚ)| / 2 ^ (Int.log 2 |(n : ℚ)| - 52)
        = (((n * 2 ^ (52 - Int.log 2 (n : ℚ)).toNat : ℕ) : ℤ) : ℚ) := by
      rw [habs, hzpow, div_eq_mul_inv, inv_inv]
      push_cast
      ring
    unfold roundDouble
    rw [if_neg hne, if_neg (not_lt.mpr hpos'.le), hf, roundSig_intCast, habs,
      hzpow]
    push_cast
    field_simp

theorem roundDouble_tie_example :
    roundDouble ((18014398509481983 : ℚ) / 18014398509481984) = 1 := by
  have hq : (0 : ℚ) < 18014398509481983 / 18014398509481984 := by norm_num
  have hlog : Int.log 2 ((18014398509481983 : ℚ) / 18014398509481984) = -1 := by
    have h1 : (-1 : ℤ) ≤ Int.log 2 ((18014398509481983 : ℚ) / 18014398509481984) := by
      rw [← Int.zpow_le_iff_le_log (by norm_num) hq]
      norm_num
    have h2 : Int.log 2 ((18014398509481983 : ℚ) / 18014398509481984) < 0 := by
      rw [← Int.lt_zpow_iff_log_lt (by norm_num) hq]
      norm_num
    omega
  have habs : |(18014398509481983 : ℚ) / 18014398509481984|
      = (18014398509481983 : ℚ) / 18014398509481984 := abs_of_pos hq
  have hf : (18014398509481983 : ℚ) / 18014398509481984 / 2 ^ (-1 - 52 : ℤ)
      = (((9007199254740991 : ℤ) : ℚ) + 1/2) := by
    have hexp : (-1 - 52 : ℤ) = -(53 : ℤ) := by norm_num
    rw [hexp, zpow_neg, div_eq_mul_inv, inv_inv]
    norm_num
  unfold roundDouble
  rw [if_neg (ne_of_gt hq), if_neg (not_lt.mpr hq.le), habs, hlog, hf,
    roundSig_half_odd 9007199254740991 (by decide)]
  norm_num

/-! ### Per-cell unfolding of the transforms -/

theorem blur_pix_border (img : Image) (y x c : Nat)
    (hin : img.inBounds y x c) (hb : img.onBorder y x) :
    (gaussian_blur img).pix y x c = img.pix y x c := by
  simp only [gaussian_blur]
  rw [if_pos hin, if_pos hb]

theorem sharpen_pix_border (img : Image) (y x c : Nat)
    (hin : img.inBounds y x c) (hb : img.onBorder y x) :
    (sharpen_filter img).pix y x c = img.pix y x c := by
  simp only [sharpen_filter]
  rw [if_pos hin, if_pos hb]

theorem edge_pix_border (img : Image) (y x c : Nat) (hb : img.onBorder y x) :
    (edge_detection img).pix y x c = 0 := by
  simp only [edge_detection]
  rw [if_neg]
  tauto

theorem blur_pix_interior (img : Image) (y x c : Nat)
    (hin : img.inBounds y x c) (hb : ¬ img.onBorder y x) :
    (gaussian_blur img).pix y x c = toU8 (convSum img gaussianKernel y x c) := by
  simp only [gaussian_blur]
  rw [if_pos hin, if_neg hb]

theorem sharpen_pix_interior (img : Image) (y x c : Nat)
    (hin : img.inBounds y x c) (hb : ¬ img.onBorder y x) :
    (sharpen_filter img).pix y x c
      = toU8 (sharpenClamp (convSum img sharpenKernel y x c)) := by
  simp only [sharpen_filter]
  rw [if_pos hin, if_neg hb]

/-! ### Kernel sum expansions -/

theorem convSum_sharpen (img : Image) (y x c : Nat) :
    convSum img sharpenKernel y x c =
      5 * (img.pix y x c : ℚ) - (img.pix (y - 1) x c : ℚ)
        - (img.pix (y + 1) x c : ℚ) - (img.pix y (x - 1) c : ℚ)
        - (img.pix y (x + 1) c : ℚ) := by
  simp [convSum, Finset.sum_range_succ, sharpenKernel]
  ring

theorem convSum_gaussian (img : Image) (y x c : Nat) :
    convSum img gaussianKernel y x c =
      ((img.pix (y - 1) (x - 1) c : ℚ) + 2 * (img.pix (y - 1) x c : ℚ)
        + (img.pix (y - 1) (x + 1) c : ℚ) + 2 * (img.pix y (x - 1) c : ℚ)
        + 4 * (img.pix y x c : ℚ) + 2 * (img.pix y (x + 1) c : ℚ)
        + (img.pix (y + 1) (x - 1) c : ℚ) + 2 * (img.pix (y + 1) x c : ℚ)
        + (img.pix (y + 1) (x + 1) c : ℚ)) / 16 := by
  simp [convSum, Finset.sum_range_succ, gaussianKernel]
  ring

/-! ### Concrete images for witnesses -/

/-- A 3x4 RGB test image with pairwise-distinct byte values. -/
def wimgA : Image := ⟨3, 4, 3, fun y x c => (y * 4 + x) * 17 + c⟩

/-- A 2x5 RGB test image: too short for any interior pixel. -/
def wimgB : Image := ⟨2, 5, 3, fun y x c => y * 50 + x * 10 + c⟩

/-- A uniform 4x4 RGB test image of value 100. -/
def wimgU : Image := ⟨4, 4, 3, fun _ _ _ => 100⟩

/-- Claim C2: blur and sharpen copy the single-pixel border frame verbatim. -/
theorem claim_C2_border_copy (img : Image) (y x c : Nat)
    (hy : y < img.height) (hx : x < img.width) (hc : c < img.channels)
    (hb : img.onBorder y x) :
    (gaussian_blur img).pix y x c = img.pix y x c ∧
    (sharpen_filter img).pix y x c = img.pix y x c :=
  ⟨blur_pix_border img y x c ⟨hy, hx, hc⟩ hb,
   sharpen_pix_border img y x c ⟨hy, hx, hc⟩ hb⟩

theorem claim_C2_border_copy_witness :
    (2 < wimgA.height ∧ 1 < wimgA.width ∧ 0 < wimgA.channels ∧
      wimgA.onBorder 2 1) ∧
    ((gaussian_blur wimgA).pix 2 1 0 = wimgA.pix 2 1 0 ∧
     (sharpen_filter wimgA).pix 2 1 0 = wimgA.pix 2 1 0) :=
  ⟨⟨by decide, by decide, by decide, by decide⟩,
   claim_C2_border_copy wimgA 2 1 0 (by decide) (by decide) (by decide)
     (by decide)⟩

/-- Claim C3: every border element of the edge-detection output is zero. -/
theorem claim_C3_edge_border_zero (img : Image) (y x c : Nat)
    (_hy : y < img.height) (_hx : x < img.width) (_hc : c < img.channels)
    (hb : img.onBorder y x) :
    (edge_detection img).pix y x c = 0 :=
  edge_pix_border img y x c hb

theorem claim_C3_edge_border_zero_witness :
    (0 < wimgA.height ∧ 2 < wimgA.width ∧ 1 < wimgA.channels ∧
      wimgA.onBorder 0 2) ∧
    (edge_detection wimgA).pix 0 2 1 = 0 :=
  ⟨⟨by decide, by decide, by decide, by decide⟩,
   claim_C3_edge_border_zero wimgA 0 2 1 (by decide) (by decide) (by decide)
     (by decide)⟩

/-- Claim C5: with height < 3 or width < 3 every cell is on the border, so blur
and sharpen return a straight copy and edge detection an all-zero image;
no transform errors (all are total functions of the embedding). -/
theorem claim_C5_degenerate_size (img : Image)
    (hsmall : img.height < 3 ∨ img.width < 3)
    (y x c : Nat) (hy : y < img.height) (hx : x < img.width)
    (hc : c < img.channels) :
    (gaussian_blur img).pix y x c = img.pix y x c ∧
    (sharpen_filter img).pix y x c = img.pix y x c ∧
    (edge_detection img).pix y x c = 0 := by
  have hb : img.onBorder y x := by
    unfold Image.onBorder
    omega
  exact ⟨blur_pix_border img y x c ⟨hy, hx, hc⟩ hb,
    sharpen_pix_border img y x c ⟨hy, hx, hc⟩ hb,
    edge_pix_border img y x c hb⟩

theorem claim_C5_degenerate_size_witness :
    ((wimgB.height < 3 ∨ wimgB.width < 3) ∧
      1 < wimgB.height ∧ 3 < wimgB.width ∧ 2 < wimgB.channels) ∧
    ((gaussian_blur wimgB).pix 1 3 2 = wimgB.pix 1 3 2 ∧
     (sharpen_filter wimgB).pix 1 3 2 = wimgB.pix 1 3 2 ∧
     (edge_detection wimgB).pix 1 3 2 = 0) :=
  ⟨⟨by decide, by decide, by decide, by decide⟩,
   claim_C5_degenerate_size wimgB (by decide) 1 3 2 (by decide) (by decide)
     (by decide)⟩

/-- Claim C9: all four transforms return an output of the input's shape (the
embedding returns a new `Image` value, mirroring the fresh
`np.zeros_like` allocation of the source). -/
theorem claim_C9_shape_preservation (img : Image) (factor : ℚ) :
    (gaussian_blur img).height = img.height ∧
    (gaussian_blur img).width = img.width ∧
    (gaussian_blur img).channels = img.channels ∧
    (sharpen_filter img).height = img.height ∧
    (sharpen_filter img).width = img.width ∧
    (sharpen_filter img).channels = img.channels ∧
    (edge_detection img).height = img.height ∧
    (edge_detection img).width = img.width ∧
    (edge_detection img).channels = img.channels ∧
    (adjust_brightness img factor).height = img.height ∧
    (adjust_brightness img factor).width = img.width ∧
    (adjust_brightness img factor).channels = img.channels :=
  ⟨rfl, rfl, rfl, rfl, rfl, rfl, rfl, rfl, rfl, rfl, rfl, rfl⟩

/-- The brightness clamp in source order agrees with the specification
clamp `max 0 (min 255 v)`. -/
theorem brightClamp_eq (v : ℚ) : brightClamp v = max 0 (min 255 v) := by
  unfold brightClamp
  simp only [max_def, min_def]
  split_ifs <;> linarith

/-- A 1x1 RGB image whose every channel is 3. -/
def cimg : Image := ⟨1, 1, 3, fun _ _ _ => 3⟩

/-- The binary64 double nearest 1/3: 6004799503160661 * 2^-54. -/
def oneThirdD : ℚ := 6004799503160661 / 18014398509481984

/-- Claim C4 as stated is false on the code: with pixel value 3 and
factor the double nearest 1/3, the source's double product
3 * 6004799503160661*2^-54 = 1 - 2^-54 is an exact tie between the
doubles 1 - 2^-53 and 1.0 and rounds (half to even) up to 1.0, so the
code outputs 1, while the claimed formula
`trunc(clamp(input * factor, 0, 255))` over the exact product gives 0. -/
theorem claim_C4_exact_product_counterexample :
    (adjust_brightness cimg oneThirdD).pix 0 0 0 = 1 ∧
    (truncQ (max 0 (min 255 ((cimg.pix 0 0 0 : ℚ) * oneThirdD)))).toNat = 0 := by
  have hval : ((cimg.pix 0 0 0 : ℚ)) * oneThirdD
      = (18014398509481983 : ℚ) / 18014398509481984 := by
    show ((3 : ℕ) : ℚ) * oneThirdD = _
    unfold oneThirdD
    norm_num
  constructor
  · show toU8 (brightClamp (roundDouble ((cimg.pix 0 0 0 : ℚ) * oneThirdD))) = 1
    rw [hval, roundDouble_tie_example]
    have hcl : brightClamp 1 = 1 := by
      unfold brightClamp
      rw [if_neg (by norm_num), if_neg (by norm_num)]
    rw [hcl]
    simpa using toU8_natCast 1
  · rw [hval]
    have hin : (0 : ℚ) ≤ 18014398509481983 / 18014398509481984 := by norm_num
    have hle : (18014398509481983 : ℚ) / 18014398509481984 ≤ 255 := by norm_num
    rw [min_eq_right (by linarith), max_eq_right hin,
      truncQ_eq_floor _ hin, Int.floor_eq_zero_iff.mpr]
    · rfl
    · constructor
      · exact hin
      · norm_num

/-- Claim C4 (amended): at every cell, for any factor, the output is
`clamp(fl(input * factor), 0, 255)` truncated toward zero, where `fl`
is the IEEE-754 binary64 rounding of the exact product; every output
element is at most 255 (hence in [0,255], the values being
naturals). -/
theorem claim_C4_brightness_contract (img : Image) (factor : ℚ) (y x c : Nat)
    (hy : y < img.height) (hx : x < img.width) (hc : c < img.channels) :
    (adjust_brightness img factor).pix y x c
        = (truncQ (max 0 (min 255
            (roundDouble ((img.pix y x c : ℚ) * factor))))).toNat ∧
      (adjust_brightness img factor).pix y x c ≤ 255 := by
  have hpix : (adjust_brightness img factor).pix y x c
      = toU8 (brightClamp (roundDouble ((img.pix y x c : ℚ) * factor))) := by
    simp only [adjust_brightness]
    rw [if_pos ⟨hy, hx, hc⟩]
  constructor
  · rw [hpix, toU8, brightClamp_eq]
  · rw [hpix, toU8, brightClamp_eq]
    refine truncQ_toNat_le _ (le_max_left _ _) ?_
    have h255 : (0 : ℚ) ≤ 255 := by norm_num
    rw [max_le_iff]
    exact ⟨h255, min_le_left _ _⟩

theorem claim_C4_brightness_contract_witness :
    (1 < wimgA.height ∧ 2 < wimgA.width ∧ 0 < wimgA.channels) ∧
    ((adjust_brightness wimgA (3/2)).pix 1 2 0
        = (truncQ (max 0 (min 255
            (roundDouble ((wimgA.pix 1 2 0 : ℚ) * (3/2)))))).toNat ∧
      (adjust_brightness wimgA (3/2)).pix 1 2 0 ≤ 255) :=
  ⟨⟨by decide, by decide, by decide⟩,
   claim_C4_brightness_contract wimgA (3/2) 1 2 0 (by decide) (by decide)
     (by decide)⟩

/-- Claim C6: brightness with factor exactly 1 is the identity on every valid
image: same shape and every in-range element unchanged. -/
theorem claim_C6_brightness_identity (img : Image) (hv : img.Valid) :
    (adjust_brightness img 1).height = img.height ∧
    (adjust_brightness img 1).width = img.width ∧
    (adjust_brightness img 1).channels = img.channels ∧
    ∀ y < img.height, ∀ x < img.width, ∀ c < img.channels,
      (adjust_brightness img 1).pix y x c = img.pix y x c := by
  refine ⟨rfl, rfl, rfl, fun y hy x hx c hc => ?_⟩
  have hple : img.pix y x c ≤ 255 := hv y hy x hx c hc
  simp only [adjust_brightness]
  rw [if_pos ⟨hy, hx, hc⟩, mul_one, roundDouble_natCast _ hple]
  have hcl : brightClamp ((img.pix y x c : ℚ)) = ((img.pix y x c : ℚ)) := by
    unfold brightClamp
    rw [if_neg (not_lt.mpr (by exact_mod_cast hple)),
      if_neg (not_lt.mpr (by positivity))]
  rw [hcl, toU8_natCast]

theorem claim_C6_brightness_identity_witness :
    wimgA.Valid ∧
    ((adjust_brightness wimgA 1).height = wimgA.height ∧
     (adjust_brightness wimgA 1).width = wimgA.width ∧
     (adjust_brightness wimgA 1).channels = wimgA.channels ∧
     ∀ y < wimgA.height, ∀ x < wimgA.width, ∀ c < wimgA.channels,
       (adjust_brightness wimgA 1).pix y x c = wimgA.pix y x c) :=
  ⟨by decide, claim_C6_brightness_identity wimgA (by decide)⟩

/-- Claim C10: a non-positive factor yields the all-zero image: each product
is at most 0, so the lower clamp sends every element to 0. -/
theorem claim_C10_brightness_nonpos (img : Image) (factor : ℚ)
    (hf : factor ≤ 0) (y x c : Nat)
    (hy : y < img.height) (hx : x < img.width) (hc : c < img.channels) :
    (adjust_brightness img factor).pix y x c = 0 := by
  simp only [adjust_brightness]
  rw [if_pos ⟨hy, hx, hc⟩]
  have hprod : (img.pix y x c : ℚ) * factor ≤ 0 :=
    mul_nonpos_of_nonneg_of_nonpos (by positivity) hf
  have hround : roundDouble ((img.pix y x c : ℚ) * factor) ≤ 0 :=
    roundDouble_nonpos _ hprod
  have hcl : brightClamp (roundDouble ((img.pix y x c : ℚ) * factor)) = 0 := by
    unfold brightClamp
    split_ifs with h1 h2
    · linarith
    · rfl
    · linarith
  rw [hcl]
  simpa using toU8_natCast 0

theorem claim_C10_brightness_nonpos_witness :
    ((-2 : ℚ) ≤ 0 ∧ 0 < wimgA.height ∧ 1 < wimgA.width ∧
      2 < wimgA.channels) ∧
    (adjust_brightness wimgA (-2)).pix 0 1 2 = 0 :=
  ⟨⟨by decide, by decide, by decide, by decide⟩,
   claim_C10_brightness_nonpos wimgA (-2) (by decide) 0 1 2 (by decide)
     (by decide) (by decide)⟩

/-- Claim C1: the interior sharpen value is the 3x3 kernel sum
`5*center - up - down - left - right`, clamped to [0,255] and truncated;
the clamped sum being an integer, the truncating cast returns it
exactly. -/
theorem claim_C1_sharpen_interior (img : Image) (y x c : Nat)
    (hh : 3 ≤ img.height) (hw : 3 ≤ img.width)
    (hy1 : 1 ≤ y) (hy2 : y ≤ img.height - 2)
    (hx1 : 1 ≤ x) (hx2 : x ≤ img.width - 2) (hc : c < img.channels) :
    (sharpen_filter img).pix y x c =
      (min 255 (max 0
        (5 * (img.pix y x c : ℤ) - (img.pix (y - 1) x c : ℤ)
          - (img.pix (y + 1) x c : ℤ) - (img.pix y (x - 1) c : ℤ)
          - (img.pix y (x + 1) c : ℤ)))).toNat := by
  have hin : img.inBounds y x c := ⟨by omega, by omega, hc⟩
  have hnb : ¬ img.onBorder y x := by
    unfold Image.onBorder
    omega
  rw [sharpen_pix_interior img y x c hin hnb, convSum_sharpen]
  have hcast : 5 * (img.pix y x c : ℚ) - (img.pix (y - 1) x c : ℚ)
        - (img.pix (y + 1) x c : ℚ) - (img.pix y (x - 1) c : ℚ)
        - (img.pix y (x + 1) c : ℚ)
      = (((5 * (img.pix y x c : ℤ) - (img.pix (y - 1) x c : ℤ)
          - (img.pix (y + 1) x c : ℤ) - (img.pix y (x - 1) c : ℤ)
          - (img.pix y (x + 1) c : ℤ)) : ℤ) : ℚ) := by
    push_cast
    ring
  rw [hcast]
  have hclamp : ∀ n : ℤ, sharpenClamp ((n : ℤ) : ℚ)
      = ((min 255 (max 0 n) : ℤ) : ℚ) := by
    intro n
    unfold sharpenClamp
    split_ifs with h1 h2
    · have hn : n < 0 := by exact_mod_cast h1
      have : min 255 (max 0 n) = 0 := by omega
      rw [this]
      norm_num
    · have hn : 255 < n := by exact_mod_cast h2
      have : min 255 (max 0 n) = 255 := by omega
      rw [this]
      norm_num
    · have hn0 : ¬ n < 0 := by exact_mod_cast h1
      have hn255 : ¬ 255 < n := by exact_mod_cast h2
      have : min 255 (max 0 n) = n := by omega
      rw [this]
  rw [hclamp, toU8_intCast]

theorem claim_C1_sharpen_interior_witness :
    (3 ≤ wimgA.height ∧ 3 ≤ wimgA.width ∧ 1 ≤ 1 ∧ 1 ≤ wimgA.height - 2 ∧
      1 ≤ 2 ∧ 2 ≤ wimgA.width - 2 ∧ 0 < wimgA.channels) ∧
    (sharpen_filter wimgA).pix 1 2 0 =
      (min 255 (max 0
        (5 * (wimgA.pix 1 2 0 : ℤ) - (wimgA.pix 0 2 0 : ℤ)
          - (wimgA.pix 2 2 0 : ℤ) - (wimgA.pix 1 1 0 : ℤ)
          - (wimgA.pix 1 3 0 : ℤ)))).toNat :=
  ⟨⟨by decide, by decide, by decide, by decide, by decide, by decide,
     by decide⟩,
   claim_C1_sharpen_interior wimgA 1 2 0 (by decide) (by decide) (by decide)
     (by decide) (by decide) (by decide) (by decide)⟩

/-- Claim C7: with byte-valued inputs, the Gaussian sum at any interior cell
lies in [0,255] (non-negative weights summing to 1), and the blur writes
the bare truncated sum, with no clamp. -/
theorem claim_C7_gaussian_sum_range (img : Image) (hv : img.Valid)
    (y x c : Nat) (hy1 : 1 ≤ y) (hy2 : y ≤ img.height - 2)
    (hx1 : 1 ≤ x) (hx2 : x ≤ img.width - 2) (hc : c < img.channels) :
    0 ≤ convSum img gaussianKernel y x c ∧
    convSum img gaussianKernel y x c ≤ 255 ∧
    (gaussian_blur img).pix y x c
      = toU8 (convSum img gaussianKernel y x c) := by
  have hh : 3 ≤ img.height := by omega
  have hw : 3 ≤ img.width := by omega
  have b1 : (img.pix (y - 1) (x - 1) c : ℚ) ≤ 255 := by
    exact_mod_cast hv (y - 1) (by omega) (x - 1) (by omega) c hc
  have b2 : (img.pix (y - 1) x c : ℚ) ≤ 255 := by
    exact_mod_cast hv (y - 1) (by omega) x (by omega) c hc
  have b3 : (img.pix (y - 1) (x + 1) c : ℚ) ≤ 255 := by
    exact_mod_cast hv (y - 1) (by omega) (x + 1) (by omega) c hc
  have b4 : (img.pix y (x - 1) c : ℚ) ≤ 255 := by
    exact_mod_cast hv y (by omega) (x - 1) (by omega) c hc
  have b5 : (img.pix y x c : ℚ) ≤ 255 := by
    exact_mod_cast hv y (by omega) x (by omega) c hc
  have b6 : (img.pix y (x + 1) c : ℚ) ≤ 255 := by
    exact_mod_cast hv y (by omega) (x + 1) (by omega) c hc
  have b7 : (img.pix (y + 1) (x - 1) c : ℚ) ≤ 255 := by
    exact_mod_cast hv (y + 1) (by omega) (x - 1) (by omega) c hc
  have b8 : (img.pix (y + 1) x c : ℚ) ≤ 255 := by
    exact_mod_cast hv (y + 1) (by omega) x (by omega) c hc
  have b9 : (img.pix (y + 1) (x + 1) c : ℚ) ≤ 255 := by
    exact_mod_cast hv (y + 1) (by omega) (x + 1) (by omega) c hc
  refine ⟨?_, ?_, ?_⟩
  · rw [convSum_gaussian]
    positivity
  · rw [convSum_gaussian]
    have h16 : (0 : ℚ) < 16 := by norm_num
    rw [div_le_iff₀ h16]
    linarith
  · exact blur_pix_interior img y x c ⟨by omega, by omega, hc⟩
      (by unfold Image.onBorder; omega)

theorem claim_C7_gaussian_sum_range_witness :
    (wimgA.Valid ∧ 1 ≤ 1 ∧ 1 ≤ wimgA.height - 2 ∧ 1 ≤ 2 ∧
      2 ≤ wimgA.width - 2 ∧ 1 < wimgA.channels) ∧
    (0 ≤ convSum wimgA gaussianKernel 1 2 1 ∧
     convSum wimgA gaussianKernel 1 2 1 ≤ 255 ∧
     (gaussian_blur wimgA).pix 1 2 1
       = toU8 (convSum wimgA gaussianKernel 1 2 1)) :=
  ⟨⟨by decide, by decide, by decide, by decide, by decide, by decide⟩,
   claim_C7_gaussian_sum_range wimgA (by decide) 1 2 1 (by decide)
     (by decide) (by decide) (by decide) (by decide)⟩

/-- Claim C8: blurring a uniform image of value v leaves every interior cell
at exactly v: the weights sum to 1, so the sum is v and truncation is
exact. -/
theorem claim_C8_gaussian_uniform (img : Image) (v : Nat)
    (huni : ∀ y < img.height, ∀ x < img.width, ∀ c < img.channels,
      img.pix y x c = v)
    (y x c : Nat) (hy1 : 1 ≤ y) (hy2 : y ≤ img.height - 2)
    (hx1 : 1 ≤ x) (hx2 : x ≤ img.width - 2) (hc : c < img.channels) :
    (gaussian_blur img).pix y x c = v := by
  rw [blur_pix_interior img y x c ⟨by omega, by omega, hc⟩
    (by unfold Image.onBorder; omega), convSum_gaussian]
  rw [huni (y - 1) (by omega) (x - 1) (by omega) c hc,
    huni (y - 1) (by omega) x (by omega) c hc,
    huni (y - 1) (by omega) (x + 1) (by omega) c hc,
    huni y (by omega) (x - 1) (by omega) c hc,
    huni y (by omega) x (by omega) c hc,
    huni y (by omega) (x + 1) (by omega) c hc,
    huni (y + 1) (by omega) (x - 1) (by omega) c hc,
    huni (y + 1) (by omega) x (by omega) c hc,
    huni (y + 1) (by omega) (x + 1) (by omega) c hc]
  have hsum : ((v : ℚ) + 2 * (v : ℚ) + (v : ℚ) + 2 * (v : ℚ) + 4 * (v : ℚ)
      + 2 * (v : ℚ) + (v : ℚ) + 2 * (v : ℚ) + (v : ℚ)) / 16 = (v : ℚ) := by
    ring
  rw [hsum, toU8_natCast]

theorem claim_C8_gaussian_uniform_witness :
    ((∀ y < wimgU.height, ∀ x < wimgU.width, ∀ c < wimgU.channels,
        wimgU.pix y x c = 100) ∧
      1 ≤ 2 ∧ 2 ≤ wimgU.height - 2 ∧ 1 ≤ 1 ∧ 1 ≤ wimgU.width - 2 ∧
      0 < wimgU.channels) ∧
    (gaussian_blur wimgU).pix 2 1 0 = 100 :=
  ⟨⟨by decide, by decide, by decide, by decide, by decide, by decide⟩,
   claim_C8_gaussian_uniform wimgU 100 (by decide) 2 1 0 (by decide)
     (by decide) (by decide) (by decide) (by decide)⟩
